import Mathlib

set_option maxHeartbeats 1000000

/-!
Verification development for the dirtree Go code analyzer (main.go).

The analyzer's state is embedded as an arena of `CodeNode` records addressed
by stable indices; Go pointer identity between nodes corresponds to index
equality, and the global `allNodes` map (the Symbol Registry) is an
association list whose lookup takes the first (most recent) binding, which
matches Go map assignment-then-lookup semantics.
-/

namespace Dirtree

/-- Receiver type expression shapes distinguished by `getReceiverTypeName`
(main.go 860-870): a plain identifier, a starred (pointer) expression, or
anything else. -/
inductive TypeExpr where
  | ident (name : String)
  | star (e : TypeExpr)
  | otherExpr
deriving DecidableEq

/-- Model of `getReceiverTypeName` (main.go 860-870): a `StarExpr` whose inner
expression is an identifier, or a bare identifier, yields that identifier's
name; every other shape yields the empty string. -/
def getReceiverTypeName : TypeExpr → String
  | .star (.ident n) => n
  | .ident n => n
  | _ => ""

/-- Model of the `CodeNode` struct (main.go 24-33).  `children`, `calls` and
`calledBy` hold arena indices in place of Go pointers. -/
structure CodeNode where
  name : String
  typ : String
  filePath : String
  receiver : String
  children : List Nat
  calls : List Nat
  calledBy : List Nat
deriving DecidableEq

/-- Placeholder node returned by out-of-range arena reads; it never occurs in
a reachable state and carries empty edge lists. -/
def defaultNode : CodeNode := ⟨"", "", "", "", [], [], []⟩

/-- The analyzer's mutable state: the arena of allocated `CodeNode`s, the
global `allNodes` registry (main.go 49), the per-run `packages` map and the
`codeRoot` children list (main.go 340, 409). -/
structure AnalysisState where
  arena : List CodeNode
  allNodes : List (String × Nat)
  packages : List (String × Nat)
  rootChildren : List Nat
deriving DecidableEq

/-- The state at analysis start: everything empty (main.go 63). -/
def initialState : AnalysisState := ⟨[], [], [], []⟩

/-- The node stored at arena index `i`. -/
def nodeAt (s : AnalysisState) (i : Nat) : CodeNode := s.arena.getD i defaultNode

/-- Registry lookup `allNodes[key]`: first binding wins, so a binding consed
on later shadows an older one exactly as a Go map assignment overwrites. -/
def regLookup (s : AnalysisState) (key : String) : Option Nat := s.allNodes.lookup key

/-- Model of `processFunction` (main.go 445-470): a callable without a
receiver is a `function`; one with a receiver is a `method` whose `receiver`
field is the receiver's base identifier (empty for unrecognized shapes,
exactly the cases of `getReceiverTypeName`). -/
def processFunction (name : String) (recv : Option TypeExpr) (relPath : String) : CodeNode :=
  match recv with
  | none => ⟨name, "function", relPath, "", [], [], []⟩
  | some t => ⟨name, "method", relPath, getReceiverTypeName t, [], [], []⟩

/-- The three type-declaration shapes `processType` distinguishes. -/
inductive TypeDefKind where
  | structType
  | interfaceType
  | otherType
deriving DecidableEq

/-- Model of `processType` (main.go 473-493). -/
def processType (name : String) (kind : TypeDefKind) (relPath : String) : CodeNode :=
  match kind with
  | .structType => ⟨name, "struct", relPath, "", [], [], []⟩
  | .interfaceType => ⟨name, "interface", relPath, "", [], [], []⟩
  | .otherType => ⟨name, "type", relPath, "", [], [], []⟩

/-- One top-level declaration of a parsed compilation unit, as consumed by
`processGoFile` (main.go 413-441). -/
inductive Decl where
  | funcDecl (name : String) (recv : Option TypeExpr)
  | typeDecl (name : String) (kind : TypeDefKind)
deriving DecidableEq

/-- A successfully parsed compilation unit: its package short name and its
top-level declarations in source order. -/
structure ParsedFile where
  pkgName : String
  decls : List Decl
deriving DecidableEq

/-- Allocate a fresh node in the arena, returning the new state and the new
node's index (the Go `&CodeNode{...}` allocation). -/
def allocNode (s : AnalysisState) (n : CodeNode) : AnalysisState × Nat :=
  (⟨s.arena ++ [n], s.allNodes, s.packages, s.rootChildren⟩, s.arena.length)

/-- Append `child` to the `children` of the node at `parent`
(`packageNode.Children = append(...)`, main.go 418/432). -/
def addChild (s : AnalysisState) (parent child : Nat) : AnalysisState :=
  let p := nodeAt s parent
  ⟨s.arena.set parent ⟨p.name, p.typ, p.filePath, p.receiver, p.children ++ [child], p.calls, p.calledBy⟩,
   s.allNodes, s.packages, s.rootChildren⟩

/-- Model of the per-declaration body of `processGoFile`'s loop
(main.go 413-441): build the node, append it to the package's children, and
assign it into the `allNodes` registry under its qualified key.  The registry
assignment is a plain Go map assignment, embedded as consing the new binding
in front (lookup takes the first binding, so this is an overwrite). -/
def processDecl (pkgKey relPath : String) (pkgId : Nat) (s : AnalysisState) (d : Decl) : AnalysisState :=
  match d with
  | .funcDecl name recv =>
    let node := processFunction name recv relPath
    let sn := allocNode s node
    let s2 := addChild sn.1 pkgId sn.2
    let key := if node.receiver = "" then pkgKey ++ ":" ++ node.name
               else pkgKey ++ ":" ++ node.receiver ++ "." ++ node.name
    ⟨s2.arena, (key, sn.2) :: s2.allNodes, s2.packages, s2.rootChildren⟩
  | .typeDecl name kind =>
    let node := processType name kind relPath
    let sn := allocNode s node
    let s2 := addChild sn.1 pkgId sn.2
    ⟨s2.arena, (pkgKey ++ ":" ++ node.name, sn.2) :: s2.allNodes, s2.packages, s2.rootChildren⟩

/-- Model of `processGoFile` (main.go 386-442).  `pkgPath` stands for
`filepath.Dir(relPath)` as computed by the caller; `parsed = none` models a
parse failure, on which the function returns with no effect (main.go 390-392).
The package node is created first-seen-wins in the `packages` map
(main.go 399-410), then each declaration is processed in order. -/
def processGoFile (pkgPath relPath : String) (parsed : Option ParsedFile) (s : AnalysisState) : AnalysisState :=
  match parsed with
  | none => s
  | some f =>
    let pkgKey := pkgPath ++ ":" ++ f.pkgName
    let sp :=
      match s.packages.lookup pkgKey with
      | some i => (s, i)
      | none =>
        let node : CodeNode := ⟨f.pkgName, "package", pkgPath, "", [], [], []⟩
        let sn := allocNode s node
        ((⟨sn.1.arena, sn.1.allNodes, (pkgKey, sn.2) :: sn.1.packages, sn.1.rootChildren ++ [sn.2]⟩ : AnalysisState), sn.2)
    f.decls.foldl (processDecl pkgKey relPath sp.2) sp.1

/-- Model of `functionCallExists` (main.go 900-907): linear scan of the
caller's `calls` for pointer equality with the callee (index equality here). -/
def functionCallExists (caller : CodeNode) (calleeId : Nat) : Bool :=
  caller.calls.contains calleeId

/-- The two appends of main.go 633-634: `currentNode.Calls = append(..., calledNode)`
and `calledNode.CalledBy = append(..., currentNode)`.  The second read goes
through the once-updated arena so that a self-edge (`i = j`) updates the one
shared node twice, exactly as the Go pointer aliasing does. -/
def insertEdge (s : AnalysisState) (i j : Nat) : AnalysisState :=
  let ni := nodeAt s i
  let a1 := s.arena.set i ⟨ni.name, ni.typ, ni.filePath, ni.receiver, ni.children, ni.calls ++ [j], ni.calledBy⟩
  let nj := a1.getD j defaultNode
  ⟨a1.set j ⟨nj.name, nj.typ, nj.filePath, nj.receiver, nj.children, nj.calls, nj.calledBy ++ [i]⟩,
   s.allNodes, s.packages, s.rootChildren⟩

/-- Model of the edge-insertion block of `analyzeFunctionCalls`
(main.go 628-638), the routine the spec calls `addEdge`: look up both keys in
the registry, do nothing if either is absent, otherwise append the mutual
back-pointers unless the exact pair already exists. -/
def addEdge (s : AnalysisState) (callerKey calleeKey : String) : AnalysisState :=
  match regLookup s callerKey with
  | none => s
  | some i =>
    match regLookup s calleeKey with
    | none => s
    | some j =>
      if functionCallExists (nodeAt s i) j then s else insertEdge s i j

/-- The base of a selector expression `X.Sel` as seen by `resolveCallExpr`:
either an identifier or something else. -/
inductive XExpr where
  | ident (name : String)
  | otherX
deriving DecidableEq

/-- The `Fun` part of a Go call expression, in the shapes `resolveCallExpr`
distinguishes: a bare identifier, a selector, or anything else. -/
inductive FunExpr where
  | ident (name : String)
  | sel (x : XExpr) (selName : String)
  | otherFun
deriving DecidableEq

/-- Model of `resolveCallExpr` (main.go 876-897); the empty string models the
unresolved `""` return.  A bare identifier resolves within the current
package; a selector whose base identifier is a known import alias resolves to
the imported path; any other identifier-based selector is heuristically keyed
as a method of a type named after the identifier's literal text; every other
shape is unresolved. -/
def resolveCallExpr (f : FunExpr) (packageKey : String) (importMap : List (String × String)) : String :=
  match f with
  | .ident n => packageKey ++ ":" ++ n
  | .sel (.ident x) selName =>
    match importMap.lookup x with
    | some importPath => importPath ++ ":" ++ selName
    | none => packageKey ++ ":" ++ x ++ "." ++ selName
  | .sel .otherX _ => ""
  | .otherFun => ""

/-- Model of `buildFunctionKey` (main.go 849-857): a declaration with a
recognizable receiver gets `pkg:recv.name`, everything else `pkg:name`. -/
def buildFunctionKey (packageKey name : String) (recv : Option TypeExpr) : String :=
  match recv with
  | some t =>
    let receiverName := getReceiverTypeName t
    if receiverName = "" then packageKey ++ ":" ++ name
    else packageKey ++ ":" ++ receiverName ++ "." ++ name
  | none => packageKey ++ ":" ++ name

/-- A top-level declaration of a unit as seen by the call-analysis pass: a
callable with the call expressions of its body in source order, or a
package-level declaration carrying initializer call expressions. -/
inductive TopDecl where
  | funcDecl (name : String) (recv : Option TypeExpr) (body : List FunExpr)
  | topLevelCalls (inits : List FunExpr)
deriving DecidableEq

/-- The events of interest that `ast.Inspect`'s pre-order traversal delivers
to the visitor of `analyzeFunctionCalls` (main.go 608-641): entering a
`FuncDecl`, or reaching a `CallExpr`. -/
inductive InspectEvent where
  | enterFunc (name : String) (recv : Option TypeExpr)
  | callExpr (f : FunExpr)
deriving DecidableEq

/-- Flatten one top-level declaration into its visitation events: a
`FuncDecl` node is visited before the call expressions of its body; a
package-level declaration contributes only its initializer calls. -/
def flattenDecl : TopDecl → List InspectEvent
  | .funcDecl name recv body => .enterFunc name recv :: body.map .callExpr
  | .topLevelCalls inits => inits.map .callExpr

/-- Pre-order event stream of a whole unit: declarations in source order. -/
def flattenFile (ds : List TopDecl) : List InspectEvent :=
  (ds.map flattenDecl).flatten

/-- Visitor state of `analyzeFunctionCalls`: the `currentFuncKey` tracker
(initially unset, set on each `FuncDecl` and never reset), the `callCounts`
map, and the shared graph state. -/
structure CallScanState where
  currentFunc : Option String
  counts : String → Nat
  graph : AnalysisState

/-- One visitor step of `analyzeFunctionCalls` (main.go 608-641).  A
`FuncDecl` updates the current-function tracker.  A `CallExpr` is skipped
when no `FuncDecl` has been visited yet; otherwise its resolved key (when
nonempty) gets its call count bumped and the edge from the current function
is inserted via the registry-checked `addEdge`. -/
def inspectStep (packageKey : String) (importMap : List (String × String))
    (st : CallScanState) (e : InspectEvent) : CallScanState :=
  match e with
  | .enterFunc name recv => ⟨some (buildFunctionKey packageKey name recv), st.counts, st.graph⟩
  | .callExpr f =>
    match st.currentFunc with
    | none => st
    | some currentFuncKey =>
      let calledFuncKey := resolveCallExpr f packageKey importMap
      if calledFuncKey = "" then st
      else
        ⟨st.currentFunc,
         fun k => if k = calledFuncKey then st.counts calledFuncKey + 1 else st.counts k,
         addEdge st.graph currentFuncKey calledFuncKey⟩

/-- Model of the per-file portion of `analyzeFunctionCalls` (main.go 588-642):
a unit that fails to parse (`none`) is skipped; otherwise the visitor folds
over the unit's pre-order events starting with no current function. -/
def analyzeFile (packageKey : String) (importMap : List (String × String))
    (parsed : Option (List TopDecl)) (counts : String → Nat) (s : AnalysisState) :
    (String → Nat) × AnalysisState :=
  match parsed with
  | none => (counts, s)
  | some ds =>
    let final := (flattenFile ds).foldl (inspectStep packageKey importMap) ⟨none, counts, s⟩
    (final.counts, final.graph)

/-- One extraction or resolution operation of the analysis run: processing a
unit's declarations (`processGoFile`) or analyzing a unit's calls
(`analyzeFile`).  In both, `none` models a unit whose parse failed. -/
inductive Op where
  | extract (pkgPath relPath : String) (parsed : Option ParsedFile)
  | analyze (packageKey : String) (importMap : List (String × String)) (parsed : Option (List TopDecl))

/-- Apply one operation to the run's (callCounts, state) pair. -/
def runStep (p : (String → Nat) × AnalysisState) (op : Op) : (String → Nat) × AnalysisState :=
  match op with
  | .extract pp rp parsed => (p.1, processGoFile pp rp parsed p.2)
  | .analyze pk im parsed => analyzeFile pk im parsed p.1 p.2

/-- A whole analysis run: fold the operations over the empty initial state. -/
def runOps (ops : List Op) : (String → Nat) × AnalysisState :=
  ops.foldl runStep (fun _ => 0, initialState)

/-- The descending-count order used by the `sort.Slice` call of
`addMostCalledFunctionsToOutput` (main.go 929-931): its comparator is
`Count i > Count j`, so the sorted output satisfies `a.2 ≥ b.2` on adjacent
pairs. -/
def countGE (a b : String × Nat) : Prop := b.2 ≤ a.2

instance : DecidableRel countGE := fun a b => Nat.decLe b.2 a.2

instance : IsTotal (String × Nat) countGE := ⟨fun a b => Nat.le_total b.2 a.2⟩

instance : IsTrans (String × Nat) countGE := ⟨fun _ _ _ h h2 => Nat.le_trans h2 h⟩

/-- Model of the ranking step of `addMostCalledFunctionsToOutput`
(main.go 920-931): the entries enumerated from the `callCounts` map are
sorted descending by count.  The entry list's order models the Go map range
order, which Go leaves unspecified; the sort is modelled by a concrete
comparison sort (Go's `sort.Slice` guarantees only sortedness with respect
to the comparator and permutation of the input, not stability). -/
def rankMostCalled (entries : List (String × Nat)) : List (String × Nat) :=
  entries.insertionSort countGE

/-- Model of the `TreeNode` struct of the directory-tree builder
(main.go 36-40). -/
inductive TreeNode where
  | mk (name : String) (isDir : Bool) (children : List TreeNode)

/-- The node's name. -/
def TreeNode.name : TreeNode → String
  | .mk n _ _ => n

/-- Whether the node is a directory. -/
def TreeNode.isDir : TreeNode → Bool
  | .mk _ d _ => d

/-- The node's children, in insertion order. -/
def TreeNode.children : TreeNode → List TreeNode
  | .mk _ _ cs => cs

/-- The tail of `addNodeToTree`'s loop once a part was not found: every
remaining part allocates a fresh node, a non-last part as a directory and the
last with the inserted entry's `isDir` (main.go 796-804). -/
def buildChain (part : String) (rest : List String) (isDir : Bool) : TreeNode :=
  match rest with
  | [] => .mk part isDir []
  | p :: ps => .mk part true [buildChain p ps isDir]

/-- A placeholder node for `List.getD`; never reached, because the index fed
to it always comes from a successful `findIdx?`. -/
def blankNode : TreeNode := .mk "" false []

/-- The loop of `addNodeToTree` (main.go 782-805) over the split path parts:
at each level the first child whose name matches the part is descended into
unchanged; when no child matches, the remaining parts are appended as a fresh
chain. -/
def insertParts : TreeNode → List String → Bool → TreeNode
  | t, [], _ => t
  | .mk n b cs, part :: rest, isDir =>
    match cs.findIdx? (fun c => c.name = part) with
    | some i => .mk n b (cs.set i (insertParts (cs.getD i blankNode) rest isDir))
    | none => .mk n b (cs ++ [buildChain part rest isDir])

/-- Model of `addNodeToTree` (main.go 777-806): split the relative path on
the path separator and walk/extend the tree. -/
def addNodeToTree (root : TreeNode) (path : String) (isDir : Bool) : TreeNode :=
  insertParts root (path.splitOn "/") isDir

mutual

/-- Every node of the tree has pairwise distinct child names. -/
def distinctNames : TreeNode → Prop
  | .mk _ _ cs => (cs.map TreeNode.name).Nodup ∧ distinctNamesAll cs

/-- `distinctNames` for every tree in a list. -/
def distinctNamesAll : List TreeNode → Prop
  | [] => True
  | c :: cs => distinctNames c ∧ distinctNamesAll cs

end

/-! ## Basic facts about the embedded operations -/

theorem nodeAt_def (s : AnalysisState) (i : Nat) : nodeAt s i = (s.arena[i]?).getD defaultNode := by
  simp [nodeAt]

theorem insertEdge_allNodes (s : AnalysisState) (i j : Nat) :
    (insertEdge s i j).allNodes = s.allNodes := rfl

theorem insertEdge_arena_length (s : AnalysisState) (i j : Nat) :
    (insertEdge s i j).arena.length = s.arena.length := by
  simp [insertEdge]

theorem calls_nodeAt_insertEdge_caller (s : AnalysisState) (i j : Nat) (hi : i < s.arena.length) :
    (nodeAt (insertEdge s i j) i).calls = (nodeAt s i).calls ++ [j] := by
  by_cases hij : i = j
  · subst hij
    simp [insertEdge, nodeAt_def, List.getElem?_set_self, hi]
  · simp [insertEdge, nodeAt_def, List.getElem?_set_ne (Ne.symm hij), List.getElem?_set_self, hi]

theorem calledBy_nodeAt_insertEdge_callee (s : AnalysisState) (i j : Nat)
    (hi : i < s.arena.length) (hj : j < s.arena.length) :
    (nodeAt (insertEdge s i j) j).calledBy = (nodeAt s j).calledBy ++ [i] := by
  by_cases hij : i = j
  · subst hij
    simp [insertEdge, nodeAt_def, List.getElem?_set_self, hi]
  · simp [insertEdge, nodeAt_def, List.getElem?_set_self, List.getElem?_set_ne hij, hj]

theorem functionCallExists_eq_false_of_not_mem {caller : CodeNode} {j : Nat}
    (h : j ∉ caller.calls) : functionCallExists caller j = false := by
  simp [functionCallExists]
  exact h

theorem functionCallExists_eq_true_of_mem {caller : CodeNode} {j : Nat}
    (h : j ∈ caller.calls) : functionCallExists caller j = true := by
  simp [functionCallExists]
  exact h

theorem addEdge_eq_insertEdge (s : AnalysisState) (a b : String) (i j : Nat)
    (ha : regLookup s a = some i) (hb : regLookup s b = some j)
    (hnew : j ∉ (nodeAt s i).calls) : addEdge s a b = insertEdge s i j := by
  unfold addEdge
  rw [ha, hb]
  show (if functionCallExists (nodeAt s i) j = true then s else insertEdge s i j) = insertEdge s i j
  rw [functionCallExists_eq_false_of_not_mem hnew]
  simp

theorem addEdge_eq_self_of_mem (s : AnalysisState) (a b : String) (i j : Nat)
    (ha : regLookup s a = some i) (hb : regLookup s b = some j)
    (hold : j ∈ (nodeAt s i).calls) : addEdge s a b = s := by
  unfold addEdge
  rw [ha, hb]
  show (if functionCallExists (nodeAt s i) j = true then s else insertEdge s i j) = s
  rw [functionCallExists_eq_true_of_mem hold]
  simp

/-! ## C6: edges require both endpoints registered -/

/-- C6: for every resolved (callerKey, calleeKey) pair, edge insertion is a
no-op when either key is absent from the Symbol Registry: the state — and in
particular every Declaration's `calls` and `calledBy` — is left unchanged,
and the miss is silent. -/
theorem addEdge_silent_on_missing_endpoint (s : AnalysisState) (a b : String)
    (h : regLookup s a = none ∨ regLookup s b = none) : addEdge s a b = s := by
  unfold addEdge
  cases ha : regLookup s a with
  | none => rfl
  | some i =>
    cases hb : regLookup s b with
    | none => rfl
    | some j => rw [ha, hb] at h; rcases h with h | h <;> exact absurd h (by simp)

/-- Witness for C6 at a concrete input: the empty state registers neither
endpoint, and inserting the edge leaves the state unchanged. -/
theorem addEdge_silent_on_missing_endpoint_witness :
    regLookup initialState "a" = none ∧ addEdge initialState "a" "b" = initialState :=
  ⟨rfl, addEdge_silent_on_missing_endpoint initialState "a" "b" (Or.inl rfl)⟩

/-! ## C3: idempotent edge insertion -/

/-- C3: edge insertion is idempotent.  For registered declarations `a` (at
arena index `i`) and `b` (at index `j`) with no existing a→b edge, inserting
the edge twice equals inserting it once, leaves exactly one occurrence of `b`
in a's `calls`, and grows b's `calledBy` by exactly one element, not two. -/
theorem addEdge_idempotent (s : AnalysisState) (a b : String) (i j : Nat)
    (ha : regLookup s a = some i) (hb : regLookup s b = some j)
    (hi : i < s.arena.length) (hj : j < s.arena.length)
    (hnew : j ∉ (nodeAt s i).calls) :
    addEdge (addEdge s a b) a b = addEdge s a b ∧
    (nodeAt (addEdge s a b) i).calls.count j = 1 ∧
    (nodeAt (addEdge s a b) j).calledBy.length = (nodeAt s j).calledBy.length + 1 := by
  have h1 : addEdge s a b = insertEdge s i j := addEdge_eq_insertEdge s a b i j ha hb hnew
  have hcalls : (nodeAt (addEdge s a b) i).calls = (nodeAt s i).calls ++ [j] := by
    rw [h1]; exact calls_nodeAt_insertEdge_caller s i j hi
  refine ⟨?_, ?_, ?_⟩
  · apply addEdge_eq_self_of_mem _ a b i j
    · rw [h1, show regLookup (insertEdge s i j) a = regLookup s a from rfl]; exact ha
    · rw [h1, show regLookup (insertEdge s i j) b = regLookup s b from rfl]; exact hb
    · rw [hcalls]; simp
  · rw [hcalls]
    simp [List.count_append, List.count_eq_zero_of_not_mem hnew]
  · rw [h1, calledBy_nodeAt_insertEdge_callee s i j hi hj]
    simp

/-- Witness for C3 at a concrete input: a package with two functions `f` and
`g`, inserting the edge f→g twice. -/
theorem addEdge_idempotent_witness :
    addEdge (addEdge (processGoFile "p" "a.go" (some ⟨"q", [.funcDecl "f" none, .funcDecl "g" none]⟩)
        initialState) "p:q:f" "p:q:g") "p:q:f" "p:q:g" =
      addEdge (processGoFile "p" "a.go" (some ⟨"q", [.funcDecl "f" none, .funcDecl "g" none]⟩)
        initialState) "p:q:f" "p:q:g" ∧
    (nodeAt (addEdge (processGoFile "p" "a.go" (some ⟨"q", [.funcDecl "f" none, .funcDecl "g" none]⟩)
        initialState) "p:q:f" "p:q:g") 1).calls.count 2 = 1 ∧
    (nodeAt (addEdge (processGoFile "p" "a.go" (some ⟨"q", [.funcDecl "f" none, .funcDecl "g" none]⟩)
        initialState) "p:q:f" "p:q:g") 2).calledBy.length =
      (nodeAt (processGoFile "p" "a.go" (some ⟨"q", [.funcDecl "f" none, .funcDecl "g" none]⟩)
        initialState) 2).calledBy.length + 1 :=
  addEdge_idempotent _ "p:q:f" "p:q:g" 1 2 (by decide) (by decide) (by decide) (by decide) (by decide)

/-! ## C2: ranking determinism -/

/-- C2 counterexample: the ranking's input is the `callCounts` map, whose Go
range order is unspecified; the two entry lists below enumerate the same map
(they are permutations of each other), yet the ranking orders them
differently, so two runs on the same input need not produce the same order
and ties are not broken by insertion order. -/
theorem deterministic_ranking_counterexample :
    ([("a", 1), ("b", 1)] : List (String × Nat)).Perm [("b", 1), ("a", 1)] ∧
    rankMostCalled [("a", 1), ("b", 1)] ≠ rankMostCalled [("b", 1), ("a", 1)] := by
  decide

/-- C2 amended: for a fixed enumeration order of the `callCounts` entries the
ranking is a deterministic function whose output is sorted descending by call
count and is a permutation of the entries; but because the enumeration order
of a Go map is unspecified, equal-count entries may appear in different
orders on different runs over the same map. -/
theorem rankMostCalled_sorted_perm (entries : List (String × Nat)) :
    (rankMostCalled entries).Sorted countGE ∧ (rankMostCalled entries).Perm entries :=
  ⟨List.sorted_insertionSort countGE entries, List.perm_insertionSort countGE entries⟩

/-! ## C1: registry collision policy -/

/-- Every binding of the `packages` map points inside the arena; true of
every state the analyzer reaches. -/
def PackagesValid (s : AnalysisState) : Prop :=
  ∀ k v, s.packages.lookup k = some v → v < s.arena.length

theorem packagesValid_initial : PackagesValid initialState := by
  intro k v h
  simp [initialState] at h

/-- Effect of `processGoFile` on a unit declaring one plain function: the
fresh declaration node sits at the top of the arena, the registry binds the
qualified key to it (shadowing any earlier binding for the same key), and
package-map validity is preserved. -/
theorem processGoFile_single_func (t : AnalysisState) (pp pn rp name : String)
    (hpk : PackagesValid t) :
    regLookup (processGoFile pp rp (some ⟨pn, [.funcDecl name none]⟩) t)
        (pp ++ ":" ++ pn ++ ":" ++ name) =
      some ((processGoFile pp rp (some ⟨pn, [.funcDecl name none]⟩) t).arena.length - 1) ∧
    nodeAt (processGoFile pp rp (some ⟨pn, [.funcDecl name none]⟩) t)
        ((processGoFile pp rp (some ⟨pn, [.funcDecl name none]⟩) t).arena.length - 1) =
      processFunction name none rp ∧
    PackagesValid (processGoFile pp rp (some ⟨pn, [.funcDecl name none]⟩) t) := by
  unfold processGoFile
  cases hpkg : t.packages.lookup (pp ++ ":" ++ pn) with
  | some i =>
    have hi : i < t.arena.length := hpk _ _ hpkg
    simp only [hpkg]
    simp only [List.foldl_cons, List.foldl_nil, processDecl, processFunction, allocNode, addChild]
    refine ⟨?_, ?_, ?_⟩
    · simp [regLookup]
    · have hne : i ≠ t.arena.length := Nat.ne_of_lt hi
      simp [nodeAt_def, List.getElem?_set_ne hne, List.getElem?_concat_length, processFunction]
    · intro k v h
      simp only [List.length_set, List.length_append, List.length_cons, List.length_nil]
      have := hpk k v h
      omega
  | none =>
    simp only [hpkg]
    simp only [List.foldl_cons, List.foldl_nil, processDecl, processFunction, allocNode, addChild]
    refine ⟨?_, ?_, ?_⟩
    · simp [regLookup]
    · have hne : t.arena.length ≠ t.arena.length + 1 := by omega
      simp [nodeAt_def, List.getElem?_set_ne hne, processFunction,
        List.getElem?_append_right, List.getElem_append_right]
    · intro k v h
      simp only [List.length_set, List.length_append, List.length_cons, List.length_nil]
      rw [List.lookup_cons] at h
      cases hkk : (k == pp ++ ":" ++ pn) with
      | true => rw [hkk] at h; simp at h; omega
      | false => rw [hkk] at h; simp at h; have := hpk k v h; omega

/-- C1 counterexample: two declarations with the same Qualified Symbol Key
(`p:q:f`, declared in `a.go` and then in `b.go`) are registered in sequence;
the Registry's entry for the key is the second-inserted Declaration (the one
with `filePath = "b.go"`), which differs from the first-inserted one, so the
second insertion is an overwrite, not a no-op. -/
theorem registry_first_seen_counterexample :
    regLookup (processGoFile "p" "b.go" (some ⟨"q", [.funcDecl "f" none]⟩)
        (processGoFile "p" "a.go" (some ⟨"q", [.funcDecl "f" none]⟩) initialState)) "p:q:f" =
      some 2 ∧
    nodeAt (processGoFile "p" "b.go" (some ⟨"q", [.funcDecl "f" none]⟩)
        (processGoFile "p" "a.go" (some ⟨"q", [.funcDecl "f" none]⟩) initialState)) 1 =
      processFunction "f" none "a.go" ∧
    nodeAt (processGoFile "p" "b.go" (some ⟨"q", [.funcDecl "f" none]⟩)
        (processGoFile "p" "a.go" (some ⟨"q", [.funcDecl "f" none]⟩) initialState)) 2 =
      processFunction "f" none "b.go" ∧
    nodeAt (processGoFile "p" "b.go" (some ⟨"q", [.funcDecl "f" none]⟩)
        (processGoFile "p" "a.go" (some ⟨"q", [.funcDecl "f" none]⟩) initialState)) 2 ≠
      nodeAt (processGoFile "p" "b.go" (some ⟨"q", [.funcDecl "f" none]⟩)
        (processGoFile "p" "a.go" (some ⟨"q", [.funcDecl "f" none]⟩) initialState)) 1 := by
  decide

/-- C1 amended: registering two declarations under the same Qualified Symbol
Key leaves the Registry's entry equal to the LAST-inserted Declaration — the
second insertion overwrites the first (last-seen wins), because the
declaration registry is a plain keyed map assignment. -/
theorem registry_last_seen_wins (s : AnalysisState) (pp pn r1 r2 name : String)
    (hpk : PackagesValid s) :
    regLookup (processGoFile pp r2 (some ⟨pn, [.funcDecl name none]⟩)
        (processGoFile pp r1 (some ⟨pn, [.funcDecl name none]⟩) s))
        (pp ++ ":" ++ pn ++ ":" ++ name) =
      some ((processGoFile pp r2 (some ⟨pn, [.funcDecl name none]⟩)
        (processGoFile pp r1 (some ⟨pn, [.funcDecl name none]⟩) s)).arena.length - 1) ∧
    nodeAt (processGoFile pp r2 (some ⟨pn, [.funcDecl name none]⟩)
        (processGoFile pp r1 (some ⟨pn, [.funcDecl name none]⟩) s))
        ((processGoFile pp r2 (some ⟨pn, [.funcDecl name none]⟩)
          (processGoFile pp r1 (some ⟨pn, [.funcDecl name none]⟩) s)).arena.length - 1) =
      processFunction name none r2 := by
  have h1 := processGoFile_single_func s pp pn r1 name hpk
  have h2 := processGoFile_single_func
    (processGoFile pp r1 (some ⟨pn, [.funcDecl name none]⟩) s) pp pn r2 name h1.2.2
  exact ⟨h2.1, h2.2.1⟩

/-- Witness for the amended C1 at a concrete input. -/
theorem registry_last_seen_wins_witness :
    regLookup (processGoFile "p" "b.go" (some ⟨"q", [.funcDecl "f" none]⟩)
        (processGoFile "p" "a.go" (some ⟨"q", [.funcDecl "f" none]⟩) initialState)) "p:q:f" =
      some ((processGoFile "p" "b.go" (some ⟨"q", [.funcDecl "f" none]⟩)
        (processGoFile "p" "a.go" (some ⟨"q", [.funcDecl "f" none]⟩) initialState)).arena.length - 1) ∧
    nodeAt (processGoFile "p" "b.go" (some ⟨"q", [.funcDecl "f" none]⟩)
        (processGoFile "p" "a.go" (some ⟨"q", [.funcDecl "f" none]⟩) initialState))
        ((processGoFile "p" "b.go" (some ⟨"q", [.funcDecl "f" none]⟩)
          (processGoFile "p" "a.go" (some ⟨"q", [.funcDecl "f" none]⟩) initialState)).arena.length - 1) =
      processFunction "f" none "b.go" :=
  registry_last_seen_wins initialState "p" "q" "a.go" "b.go" "f" packagesValid_initial

/-! ## C5: the Call Resolver's three dispatch cases -/

/-- C5: the Call Resolver dispatches in exactly three cases.  A bare
identifier call resolves to the current package's key for that name (the
same key `buildFunctionKey` gives a plain function, never cross-package); a
selector call whose base is a known import alias resolves to the imported
module path combined with the selected name; a selector call whose base
identifier is not a known alias resolves within the current package using
the identifier's literal text as the receiver type; every other shape
(selector over a non-identifier, or any other function expression) resolves
to nothing. -/
theorem resolveCallExpr_dispatch (pk : String) (im : List (String × String))
    (n x y s ip : String)
    (hx : im.lookup x = some ip) (hy : im.lookup y = none) :
    resolveCallExpr (.ident n) pk im = pk ++ ":" ++ n ∧
    pk ++ ":" ++ n = buildFunctionKey pk n none ∧
    resolveCallExpr (.sel (.ident x) s) pk im = ip ++ ":" ++ s ∧
    resolveCallExpr (.sel (.ident y) s) pk im = pk ++ ":" ++ y ++ "." ++ s ∧
    resolveCallExpr (.sel .otherX s) pk im = "" ∧
    resolveCallExpr .otherFun pk im = "" := by
  refine ⟨rfl, rfl, ?_, ?_, rfl, rfl⟩
  · simp [resolveCallExpr, hx]
  · simp [resolveCallExpr, hy]

/-- Witness for C5 at a concrete input: current package `d:p`, one import of
`lib/util` under alias `u`, and the five call shapes. -/
theorem resolveCallExpr_dispatch_witness :
    ([("u", "lib/util")] : List (String × String)).lookup "u" = some "lib/util" ∧
    ([("u", "lib/util")] : List (String × String)).lookup "x" = none ∧
    (resolveCallExpr (.ident "f") "d:p" [("u", "lib/util")] = "d:p" ++ ":" ++ "f" ∧
     "d:p" ++ ":" ++ "f" = buildFunctionKey "d:p" "f" none ∧
     resolveCallExpr (.sel (.ident "u") "Do") "d:p" [("u", "lib/util")] = "lib/util" ++ ":" ++ "Do" ∧
     resolveCallExpr (.sel (.ident "x") "Do") "d:p" [("u", "lib/util")] = "d:p" ++ ":" ++ "x" ++ "." ++ "Do" ∧
     resolveCallExpr (.sel .otherX "Do") "d:p" [("u", "lib/util")] = "" ∧
     resolveCallExpr .otherFun "d:p" [("u", "lib/util")] = "") :=
  ⟨by decide, by decide,
   resolveCallExpr_dispatch "d:p" [("u", "lib/util")] "f" "u" "x" "Do" "lib/util"
     (by decide) (by decide)⟩

/-! ## C8: parse-failure isolation -/

/-- C8: a compilation unit that fails to parse contributes zero declarations
to the Registry and zero call edges, and leaves every declaration from the
other units of the batch intact: a run over a batch containing the failed
unit produces exactly the state of the run without it, whether the failure
occurs in the extraction pass or in the call-analysis pass.  (Both passes are
total functions of the input, so no failure is ever fatal.) -/
theorem parse_failure_isolated (pre post : List Op) (pp rp pk : String)
    (im : List (String × String)) :
    runOps (pre ++ .extract pp rp none :: post) = runOps (pre ++ post) ∧
    runOps (pre ++ .analyze pk im none :: post) = runOps (pre ++ post) := by
  constructor <;>
  · unfold runOps
    rw [List.foldl_append, List.foldl_append, List.foldl_cons]
    rfl

/-! ## C9: calls outside any callable body -/

/-- C9: evaluation of the code at the failing input.  The unit declares
`func f() {}` followed by a package-level initializer containing the call
`g()` — a call expression outside any callable body.  The claim says such a
call contributes no call count and no edge regardless of its position; but
the visitor's current-function tracker is set at each `FuncDecl` and never
reset, so the code attributes the package-level call to the lexically
preceding function: the count of `p:q:g` becomes 1 and the edge f→g
materializes.  (The second conjunct shows the claim does hold for a
package-level call placed before the first callable, where the tracker is
still unset.) -/
theorem package_level_call_attributed :
    ((analyzeFile "p:q" [] (some [.funcDecl "f" none [], .topLevelCalls [.ident "g"]]) (fun _ => 0)
        (processGoFile "p" "a.go" (some ⟨"q", [.funcDecl "f" none, .funcDecl "g" none]⟩)
          initialState)).1 "p:q:g" = 1 ∧
     (nodeAt (analyzeFile "p:q" [] (some [.funcDecl "f" none [], .topLevelCalls [.ident "g"]])
        (fun _ => 0)
        (processGoFile "p" "a.go" (some ⟨"q", [.funcDecl "f" none, .funcDecl "g" none]⟩)
          initialState)).2 1).calls = [2] ∧
     (nodeAt (analyzeFile "p:q" [] (some [.funcDecl "f" none [], .topLevelCalls [.ident "g"]])
        (fun _ => 0)
        (processGoFile "p" "a.go" (some ⟨"q", [.funcDecl "f" none, .funcDecl "g" none]⟩)
          initialState)).2 2).calledBy = [1]) ∧
    ((analyzeFile "p:q" [] (some [.topLevelCalls [.ident "g"], .funcDecl "f" none []]) (fun _ => 0)
        (processGoFile "p" "a.go" (some ⟨"q", [.funcDecl "f" none, .funcDecl "g" none]⟩)
          initialState)).1 "p:q:g" = 0 ∧
     (analyzeFile "p:q" [] (some [.topLevelCalls [.ident "g"], .funcDecl "f" none []]) (fun _ => 0)
        (processGoFile "p" "a.go" (some ⟨"q", [.funcDecl "f" none, .funcDecl "g" none]⟩)
          initialState)).2 =
       processGoFile "p" "a.go" (some ⟨"q", [.funcDecl "f" none, .funcDecl "g" none]⟩)
         initialState) := by
  decide

/-! ## C7: collision-freedom of the Qualified Symbol Key -/

/-- `s` contains no colon character.  True of Go package short names,
receiver type names and declaration names (all Go identifiers). -/
def colonFree (s : String) : Prop := ':' ∉ s.data

/-- `s` contains no dot character.  True of Go identifiers. -/
def dotFree (s : String) : Prop := '.' ∉ s.data

instance (s : String) : Decidable (colonFree s) := by unfold colonFree; infer_instance

instance (s : String) : Decidable (dotFree s) := by unfold dotFree; infer_instance

/-- In a list split at a colon with a colon-free prefix, the split point is
unique: equal lists split into equal parts. -/
theorem colon_split_unique {a1 a2 b1 b2 : List Char}
    (h1 : ':' ∉ a1) (h2 : ':' ∉ a2)
    (h : a1 ++ ':' :: b1 = a2 ++ ':' :: b2) : a1 = a2 ∧ b1 = b2 := by
  induction a1 generalizing a2 with
  | nil =>
    cases a2 with
    | nil => simpa using h
    | cons c t =>
      rw [List.nil_append, List.cons_append] at h
      injection h with hc _
      exact absurd (hc ▸ List.mem_cons_self c t) h2
  | cons c t ih =>
    cases a2 with
    | nil =>
      rw [List.nil_append, List.cons_append] at h
      injection h with hc _
      exact absurd (hc.symm ▸ List.mem_cons_self c t) h1
    | cons d u =>
      rw [List.cons_append, List.cons_append] at h
      injection h with hcd hrest
      have ht : ':' ∉ t := fun hm => h1 (List.mem_cons_of_mem _ hm)
      have hu : ':' ∉ u := fun hm => h2 (List.mem_cons_of_mem _ hm)
      have := ih ht hu hrest
      exact ⟨by rw [hcd, this.1], this.2⟩

/-- The suffix after the last colon is unique when it is colon-free. -/
theorem last_colon_unique {p1 p2 t1 t2 : List Char}
    (h1 : ':' ∉ t1) (h2 : ':' ∉ t2)
    (h : p1 ++ ':' :: t1 = p2 ++ ':' :: t2) : p1 = p2 ∧ t1 = t2 := by
  have hr := congrArg List.reverse h
  simp only [List.reverse_append, List.reverse_cons, List.append_assoc,
    List.singleton_append] at hr
  have : t1.reverse = t2.reverse ∧ p1.reverse = p2.reverse :=
    colon_split_unique (by simpa using h1) (by simpa using h2) hr
  exact ⟨List.reverse_injective this.2, List.reverse_injective this.1⟩

/-- The receiver name a declaration's optional receiver contributes to its
key (empty when there is no receiver or its shape is unrecognized). -/
def recvName : Option TypeExpr → String
  | none => ""
  | some t => getReceiverTypeName t

/-- The part of a qualified key after `packageKey ++ ":"`. -/
def keyTail (name : String) (recv : Option TypeExpr) : String :=
  if recvName recv = "" then name else recvName recv ++ "." ++ name

theorem buildFunctionKey_eq (pk name : String) (recv : Option TypeExpr) :
    buildFunctionKey pk name recv = pk ++ ":" ++ keyTail name recv := by
  cases recv with
  | none => simp [buildFunctionKey, keyTail, recvName]
  | some t =>
    by_cases h : getReceiverTypeName t = "" <;>
      simp [buildFunctionKey, keyTail, recvName, h, String.append_assoc]

theorem colonFree_append {a b : String} (ha : colonFree a) (hb : colonFree b) :
    colonFree (a ++ b) := by
  unfold colonFree at *
  rw [String.data_append]
  simp only [List.mem_append]
  exact fun hm => hm.elim ha hb

theorem colonFree_keyTail {name : String} {recv : Option TypeExpr}
    (hn : colonFree name) (hr : colonFree (recvName recv)) :
    colonFree (keyTail name recv) := by
  unfold keyTail
  by_cases h : recvName recv = ""
  · simpa [h] using hn
  · simp only [h, if_false]
    exact colonFree_append (colonFree_append hr (by decide)) hn

theorem data_buildFunctionKey (p sn name : String) (recv : Option TypeExpr) :
    (buildFunctionKey (p ++ ":" ++ sn) name recv).data =
      (p.data ++ ':' :: sn.data) ++ ':' :: (keyTail name recv).data := by
  rw [buildFunctionKey_eq]
  simp [String.data_append]

/-- C7: the Qualified Symbol Key is collision-free.  (a) Declarations from
two packages that share the short name `sn` but differ in path (`p1 ≠ p2`)
receive different keys, given that the short name, the declaration names and
the receiver names contain no colon (they are Go identifiers).  (b) Within
one package, a method `T.m1` and an unrelated function `m2` receive distinct
keys, given that `T` is nonempty and `m2` contains no dot. -/
theorem qualified_key_collision_free
    (p1 p2 sn n1 n2 : String) (r1 r2 : Option TypeExpr) (pk T m1 m2 : String)
    (hp : p1 ≠ p2) (hs : colonFree sn)
    (hn1 : colonFree n1) (hn2 : colonFree n2)
    (hr1 : colonFree (recvName r1)) (hr2 : colonFree (recvName r2))
    (hT : T ≠ "") (hm2 : dotFree m2) :
    buildFunctionKey (p1 ++ ":" ++ sn) n1 r1 ≠ buildFunctionKey (p2 ++ ":" ++ sn) n2 r2 ∧
    buildFunctionKey pk m1 (some (.ident T)) ≠ buildFunctionKey pk m2 none := by
  constructor
  · intro h
    have hd := congrArg String.data h
    rw [data_buildFunctionKey, data_buildFunctionKey] at hd
    have hstep := last_colon_unique (colonFree_keyTail hn1 hr1) (colonFree_keyTail hn2 hr2) hd
    have hstep2 := last_colon_unique hs hs hstep.1
    exact hp (String.ext hstep2.1)
  · intro h
    have hd := congrArg String.data h
    rw [buildFunctionKey_eq, buildFunctionKey_eq] at h
    have hT' : recvName (some (.ident T)) = T := rfl
    have hkt : keyTail m1 (some (.ident T)) = T ++ "." ++ m1 := by
      unfold keyTail
      rw [hT']
      simp [hT]
    have hd2 := congrArg String.data h
    rw [hkt] at hd2
    simp only [String.data_append] at hd2
    have htail : (T.data ++ ".".data) ++ m1.data = m2.data :=
      List.append_cancel_left hd2
    apply hm2
    rw [← htail]
    have : '.' ∈ ".".data := by decide
    simp [List.mem_append, this]

/-- Witness for C7 at concrete inputs: packages `a` and `b` share the short
name `m`; in package key `a:m`, the method `T.f` and the function `f`. -/
theorem qualified_key_collision_free_witness :
    ("a" : String) ≠ "b" ∧ colonFree "m" ∧ colonFree "f" ∧
    colonFree (recvName (some (.ident "T"))) ∧ ("T" : String) ≠ "" ∧ dotFree "f" ∧
    (buildFunctionKey ("a" ++ ":" ++ "m") "f" none ≠ buildFunctionKey ("b" ++ ":" ++ "m") "f" none ∧
     buildFunctionKey "a:m" "f" (some (.ident "T")) ≠ buildFunctionKey "a:m" "f" none) :=
  ⟨by decide, by decide, by decide, by decide, by decide, by decide,
   qualified_key_collision_free "a" "b" "m" "f" "f" none none "a:m" "T" "f" "f"
     (by decide) (by decide) (by decide) (by decide) (by decide) (by decide)
     (by decide) (by decide)⟩

/-! ## C4: symmetry of calls/calledBy -/

/-- Every index stored in any node's `calls` or `calledBy` points inside the
arena. -/
def EdgesValid (s : AnalysisState) : Prop :=
  ∀ i : Nat, (∀ j ∈ (nodeAt s i).calls, j < s.arena.length) ∧
    (∀ j ∈ (nodeAt s i).calledBy, j < s.arena.length)

/-- Registry bindings point inside the arena. -/
def RegValid (s : AnalysisState) : Prop :=
  ∀ k v, s.allNodes.lookup k = some v → v < s.arena.length

/-- The calls/calledBy relation is symmetric. -/
def SymmEdges (s : AnalysisState) : Prop :=
  ∀ i j : Nat, j ∈ (nodeAt s i).calls ↔ i ∈ (nodeAt s j).calledBy

/-- Invariant of every reachable analysis state. -/
def StateInv (s : AnalysisState) : Prop := RegValid s ∧ EdgesValid s ∧ SymmEdges s

theorem stateInv_initial : StateInv initialState := by
  refine ⟨fun k v h => by simp [initialState] at h, fun i => ?_, fun i j => ?_⟩ <;>
    simp [initialState, nodeAt_def, defaultNode]

theorem nodeAt_alloc (s : AnalysisState) (n : CodeNode) (i : Nat) :
    nodeAt (allocNode s n).1 i =
      if i < s.arena.length then nodeAt s i
      else if i = s.arena.length then n else defaultNode := by
  simp only [allocNode, nodeAt_def]
  by_cases h : i < s.arena.length
  · simp [h, List.getElem?_append_left h]
  · by_cases h2 : i = s.arena.length
    · subst h2
      simp [List.getElem?_concat_length]
    · rw [List.getElem?_eq_none (by simp; omega)]
      simp [h, h2]

theorem stateInv_alloc {s : AnalysisState} {n : CodeNode}
    (hinv : StateInv s) (hc : n.calls = []) (hb : n.calledBy = []) :
    StateInv (allocNode s n).1 := by
  obtain ⟨hr, he, hs⟩ := hinv
  have hlen : (allocNode s n).1.arena.length = s.arena.length + 1 := by
    simp [allocNode]
  have hreg : (allocNode s n).1.allNodes = s.allNodes := rfl
  refine ⟨?_, ?_, ?_⟩
  · intro k v h
    rw [hreg] at h
    have := hr k v h
    omega
  · intro i
    rw [nodeAt_alloc, hlen]
    by_cases h : i < s.arena.length
    · simp only [h, if_true]
      exact ⟨fun j hj => by have := (he i).1 j hj; omega,
             fun j hj => by have := (he i).2 j hj; omega⟩
    · by_cases h2 : i = s.arena.length <;> simp [h, h2, hc, hb, defaultNode]
  · intro i j
    rw [nodeAt_alloc, nodeAt_alloc]
    by_cases hi : i < s.arena.length <;> by_cases hj : j < s.arena.length
    · simp only [hi, hj, if_true]
      exact hs i j
    · simp only [hi, hj, if_true, if_false]
      have hnc : j ∉ (nodeAt s i).calls := fun hm => hj ((he i).1 j hm)
      by_cases h2 : j = s.arena.length
      · subst h2
        simp [hb, defaultNode, hnc]
      · simp [h2, defaultNode, hnc]
    · simp only [hi, hj, if_true, if_false]
      have hnb : i ∉ (nodeAt s j).calledBy := fun hm => hi ((he j).2 i hm)
      by_cases h2 : i = s.arena.length
      · subst h2
        simp [hc, defaultNode, hnb]
      · simp [h2, defaultNode, hnb]
    · simp only [hi, hj, if_false]
      by_cases h2 : i = s.arena.length <;> by_cases h3 : j = s.arena.length <;>
        simp [h2, h3, hc, hb, defaultNode]

theorem addChild_arena_length (s : AnalysisState) (p c : Nat) :
    (addChild s p c).arena.length = s.arena.length := by
  simp [addChild]

theorem addChild_allNodes (s : AnalysisState) (p c : Nat) :
    (addChild s p c).allNodes = s.allNodes := rfl

theorem calls_nodeAt_addChild (s : AnalysisState) (p c i : Nat) :
    (nodeAt (addChild s p c) i).calls = (nodeAt s i).calls := by
  simp only [addChild, nodeAt_def]
  by_cases hp : p < s.arena.length
  · by_cases h : i = p
    · subst h
      simp [List.getElem?_set_self hp, List.getElem?_eq_getElem hp]
    · simp [List.getElem?_set_ne (Ne.symm h)]
  · rw [List.set_eq_of_length_le (by omega)]

theorem calledBy_nodeAt_addChild (s : AnalysisState) (p c i : Nat) :
    (nodeAt (addChild s p c) i).calledBy = (nodeAt s i).calledBy := by
  simp only [addChild, nodeAt_def]
  by_cases hp : p < s.arena.length
  · by_cases h : i = p
    · subst h
      simp [List.getElem?_set_self hp, List.getElem?_eq_getElem hp]
    · simp [List.getElem?_set_ne (Ne.symm h)]
  · rw [List.set_eq_of_length_le (by omega)]

theorem stateInv_addChild {s : AnalysisState} (hinv : StateInv s) (p c : Nat) :
    StateInv (addChild s p c) := by
  obtain ⟨hr, he, hs⟩ := hinv
  refine ⟨?_, ?_, ?_⟩
  · intro k v h
    rw [addChild_allNodes] at h
    rw [addChild_arena_length]
    exact hr k v h
  · intro i
    rw [calls_nodeAt_addChild, calledBy_nodeAt_addChild, addChild_arena_length]
    exact he i
  · intro i j
    rw [calls_nodeAt_addChild, calledBy_nodeAt_addChild]
    exact hs i j

theorem calls_nodeAt_insertEdge (s : AnalysisState) (i j k : Nat)
    (hi : i < s.arena.length) :
    (nodeAt (insertEdge s i j) k).calls =
      if k = i then (nodeAt s i).calls ++ [j] else (nodeAt s k).calls := by
  by_cases h : k = i
  · subst h
    rw [if_pos rfl]
    exact calls_nodeAt_insertEdge_caller s k j hi
  · simp only [h, if_false, insertEdge, nodeAt_def]
    by_cases h2 : k = j
    · subst h2
      by_cases hj : k < s.arena.length
      · simp [List.getElem?_set_self, List.getElem?_set_ne (fun hh => h hh.symm), hj,
          List.getElem?_eq_getElem hj]
      · rw [List.getElem?_eq_none (by simp; omega), List.getElem?_eq_none (by omega)]
    · simp [List.getElem?_set_ne (fun hh => h2 hh.symm), List.getElem?_set_ne (fun hh => h hh.symm)]

theorem calledBy_nodeAt_insertEdge (s : AnalysisState) (i j k : Nat)
    (hi : i < s.arena.length) (hj : j < s.arena.length) :
    (nodeAt (insertEdge s i j) k).calledBy =
      if k = j then (nodeAt s j).calledBy ++ [i] else (nodeAt s k).calledBy := by
  by_cases h : k = j
  · subst h
    rw [if_pos rfl]
    exact calledBy_nodeAt_insertEdge_callee s i _ hi hj
  · simp only [h, if_false, insertEdge, nodeAt_def]
    by_cases h2 : k = i
    · subst h2
      simp [List.getElem?_set_ne (fun hh => h hh.symm), List.getElem?_set_self hi,
        List.getElem?_eq_getElem hi]
    · simp [List.getElem?_set_ne (fun hh => h hh.symm), List.getElem?_set_ne (fun hh => h2 hh.symm)]

theorem stateInv_insertEdge {s : AnalysisState} (hinv : StateInv s) {i j : Nat}
    (hi : i < s.arena.length) (hj : j < s.arena.length) :
    StateInv (insertEdge s i j) := by
  obtain ⟨hr, he, hs⟩ := hinv
  have hlen := insertEdge_arena_length s i j
  refine ⟨?_, ?_, ?_⟩
  · intro k v h
    rw [insertEdge_allNodes] at h
    rw [hlen]
    exact hr k v h
  · intro k
    rw [calls_nodeAt_insertEdge s i j k hi, calledBy_nodeAt_insertEdge s i j k hi hj, hlen]
    constructor
    · intro m hm
      by_cases h : k = i
      · rw [if_pos h] at hm
        rcases List.mem_append.1 hm with hm | hm
        · exact (he i).1 m hm
        · simp at hm
          omega
      · rw [if_neg h] at hm
        exact (he k).1 m hm
    · intro m hm
      by_cases h : k = j
      · rw [if_pos h] at hm
        rcases List.mem_append.1 hm with hm | hm
        · exact (he j).2 m hm
        · simp at hm
          omega
      · rw [if_neg h] at hm
        exact (he k).2 m hm
  · intro a b
    rw [calls_nodeAt_insertEdge s i j a hi, calledBy_nodeAt_insertEdge s i j b hi hj]
    by_cases ha : a = i <;> by_cases hb : b = j
    · subst ha; subst hb
      simp
    · subst ha
      rw [if_pos rfl, if_neg hb]
      simp only [List.mem_append, List.mem_singleton]
      constructor
      · intro h
        rcases h with h | h
        · exact (hs a b).1 h
        · exact absurd h hb
      · intro h
        exact Or.inl ((hs a b).2 h)
    · subst hb
      rw [if_neg ha, if_pos rfl]
      simp only [List.mem_append, List.mem_singleton]
      constructor
      · intro h
        exact Or.inl ((hs a b).1 h)
      · intro h
        rcases h with h | h
        · exact (hs a b).2 h
        · exact absurd h ha
    · rw [if_neg ha, if_neg hb]
      exact hs a b

theorem stateInv_addEdge {s : AnalysisState} (hinv : StateInv s) (a b : String) :
    StateInv (addEdge s a b) := by
  unfold addEdge
  cases ha : regLookup s a with
  | none => exact hinv
  | some i =>
    cases hb : regLookup s b with
    | none => exact hinv
    | some j =>
      by_cases hex : functionCallExists (nodeAt s i) j
      · simp only [hex, if_true]
        exact hinv
      · simp only [hex, if_false]
        have hi := hinv.1 a i ha
        have hj := hinv.1 b j hb
        exact stateInv_insertEdge hinv hi hj

/-- Generic fold preservation. -/
theorem foldl_preserves {σ α : Type} (P : σ → Prop) (f : σ → α → σ)
    (hstep : ∀ s a, P s → P (f s a)) :
    ∀ (l : List α) (s : σ), P s → P (l.foldl f s) := by
  intro l
  induction l with
  | nil => exact fun s h => h
  | cons a t ih => exact fun s h => ih _ (hstep s a h)

theorem calls_processFunction (name : String) (recv : Option TypeExpr) (relPath : String) :
    (processFunction name recv relPath).calls = [] ∧
    (processFunction name recv relPath).calledBy = [] := by
  cases recv <;> simp [processFunction]

theorem calls_processType (name : String) (kind : TypeDefKind) (relPath : String) :
    (processType name kind relPath).calls = [] ∧
    (processType name kind relPath).calledBy = [] := by
  cases kind <;> simp [processType]

/-- Consing a valid binding onto the registry (with arbitrary replacement of
the `packages`/`rootChildren` components, which the invariant ignores)
preserves the invariant. -/
theorem stateInv_consReg {s : AnalysisState} (hinv : StateInv s) (key : String) (id : Nat)
    (hid : id < s.arena.length) (pk : List (String × Nat)) (rc : List Nat) :
    StateInv ⟨s.arena, (key, id) :: s.allNodes, pk, rc⟩ := by
  obtain ⟨hr, he, hs⟩ := hinv
  refine ⟨?_, he, hs⟩
  intro k v h
  show v < s.arena.length
  rw [List.lookup_cons] at h
  cases hkk : (k == key) with
  | true =>
    rw [hkk] at h
    simp at h
    omega
  | false =>
    rw [hkk] at h
    exact hr k v h

theorem stateInv_processDecl {s : AnalysisState} (hinv : StateInv s)
    (pkgKey relPath : String) (pkgId : Nat) (d : Decl) :
    StateInv (processDecl pkgKey relPath pkgId s d) := by
  cases d with
  | funcDecl name recv =>
    have h1 := stateInv_alloc hinv (calls_processFunction name recv relPath).1
      (calls_processFunction name recv relPath).2
    have h2 := stateInv_addChild h1 pkgId s.arena.length
    have hid : s.arena.length <
        (addChild (allocNode s (processFunction name recv relPath)).1 pkgId s.arena.length).arena.length := by
      rw [addChild_arena_length]
      simp [allocNode]
    exact stateInv_consReg h2 _ _ hid _ _
  | typeDecl name kind =>
    have h1 := stateInv_alloc hinv (calls_processType name kind relPath).1
      (calls_processType name kind relPath).2
    have h2 := stateInv_addChild h1 pkgId s.arena.length
    have hid : s.arena.length <
        (addChild (allocNode s (processType name kind relPath)).1 pkgId s.arena.length).arena.length := by
      rw [addChild_arena_length]
      simp [allocNode]
    exact stateInv_consReg h2 _ _ hid _ _

theorem stateInv_processGoFile {s : AnalysisState} (hinv : StateInv s)
    (pkgPath relPath : String) (parsed : Option ParsedFile) :
    StateInv (processGoFile pkgPath relPath parsed s) := by
  cases parsed with
  | none => exact hinv
  | some f =>
    unfold processGoFile
    cases hpkg : s.packages.lookup (pkgPath ++ ":" ++ f.pkgName) with
    | some i =>
      simp only [hpkg]
      exact foldl_preserves StateInv _ (fun t d ht => stateInv_processDecl ht _ _ _ d) f.decls s hinv
    | none =>
      simp only [hpkg]
      refine foldl_preserves StateInv _ (fun t d ht => stateInv_processDecl ht _ _ _ d) f.decls _ ?_
      exact stateInv_alloc hinv rfl rfl

theorem stateInv_inspectStep {st : CallScanState} (hinv : StateInv st.graph)
    (packageKey : String) (importMap : List (String × String)) (e : InspectEvent) :
    StateInv (inspectStep packageKey importMap st e).graph := by
  cases e with
  | enterFunc name recv => exact hinv
  | callExpr f =>
    simp only [inspectStep]
    cases st.currentFunc with
    | none => exact hinv
    | some currentFuncKey =>
      by_cases h : resolveCallExpr f packageKey importMap = "" <;> simp only [h, if_true, if_false]
      · exact hinv
      · exact stateInv_addEdge hinv _ _

theorem stateInv_analyzeFile {s : AnalysisState} (hinv : StateInv s)
    (packageKey : String) (importMap : List (String × String))
    (parsed : Option (List TopDecl)) (counts : String → Nat) :
    StateInv (analyzeFile packageKey importMap parsed counts s).2 := by
  cases parsed with
  | none => exact hinv
  | some ds =>
    exact foldl_preserves (fun st : CallScanState => StateInv st.graph) _
      (fun st e h => stateInv_inspectStep h packageKey importMap e)
      (flattenFile ds) ⟨none, counts, s⟩ hinv

theorem stateInv_runOps (ops : List Op) : StateInv (runOps ops).2 := by
  unfold runOps
  refine foldl_preserves (fun p : (String → Nat) × AnalysisState => StateInv p.2) runStep
    ?_ ops _ stateInv_initial
  intro p op hp
  cases op with
  | extract pp rp parsed => exact stateInv_processGoFile hp pp rp parsed
  | analyze pk im parsed => exact stateInv_analyzeFile hp pk im parsed p.1

/-- C4: after any sequence of extraction and resolution operations (unit
processing, including failed parses, and call analysis), the calls/calledBy
relation of the resulting state is symmetric: `j` appears in the `calls` of
the node at `i` exactly when `i` appears in the `calledBy` of the node at
`j`. -/
theorem calls_calledBy_symmetric (ops : List Op) (i j : Nat) :
    j ∈ (nodeAt (runOps ops).2 i).calls ↔ i ∈ (nodeAt (runOps ops).2 j).calledBy :=
  (stateInv_runOps ops).2.2 i j

/-! ## C10: the directory tree builder -/

theorem set_getElem_self_eq {α : Type} (l : List α) (i : Nat) (h : i < l.length) :
    l.set i l[i] = l := by
  induction l generalizing i with
  | nil => simp at h
  | cons x xs ih =>
    cases i with
    | zero => rfl
    | succ k =>
      simp only [List.set_cons_succ, List.getElem_cons_succ]
      rw [ih k (by simpa using h)]

theorem insertParts_nil (t : TreeNode) (d : Bool) : insertParts t [] d = t := by
  cases t
  rfl

theorem buildChain_name (part : String) (rest : List String) (d : Bool) :
    (buildChain part rest d).name = part := by
  cases rest <;> rfl

theorem insertParts_name (t : TreeNode) (parts : List String) (d : Bool) :
    (insertParts t parts d).name = t.name := by
  cases parts with
  | nil => rw [insertParts_nil]
  | cons p rest =>
    cases t with
    | mk n b cs =>
      simp only [insertParts]
      cases cs.findIdx? (fun c => decide (c.name = p)) <;> rfl

theorem distinctNamesAll_iff (cs : List TreeNode) :
    distinctNamesAll cs ↔ ∀ c ∈ cs, distinctNames c := by
  induction cs with
  | nil => simp [distinctNamesAll]
  | cons c t ih => simp [distinctNamesAll, ih]

theorem distinctNames_mk (n : String) (b : Bool) (cs : List TreeNode) :
    distinctNames (.mk n b cs) ↔ (cs.map TreeNode.name).Nodup ∧ distinctNamesAll cs := by
  rw [distinctNames]

theorem distinctNames_buildChain (part : String) (rest : List String) (d : Bool) :
    distinctNames (buildChain part rest d) := by
  induction rest generalizing part with
  | nil => simp [buildChain, distinctNames_mk, distinctNamesAll]
  | cons p ps ih =>
    simp only [buildChain, distinctNames_mk]
    exact ⟨by simp, by simp [distinctNamesAll]; exact ih p⟩

theorem distinctNames_insertParts {t : TreeNode} (h : distinctNames t)
    (parts : List String) (d : Bool) : distinctNames (insertParts t parts d) := by
  induction parts generalizing t with
  | nil => rw [insertParts_nil]; exact h
  | cons part rest ih =>
    cases t with
    | mk n b cs =>
      rw [distinctNames_mk] at h
      simp only [insertParts]
      cases hf : cs.findIdx? (fun c => decide (c.name = part)) with
      | some i =>
        obtain ⟨hlt, hpi, _⟩ := List.findIdx?_eq_some_iff_getElem.1 hf
        have hgd : cs.getD i blankNode = cs[i] := by
          rw [List.getD_eq_getElem?_getD, List.getElem?_eq_getElem hlt]
          rfl
        have hchild : distinctNames (insertParts (cs.getD i blankNode) rest d) := by
          apply ih
          rw [hgd]
          exact (distinctNamesAll_iff cs).1 h.2 _ (List.getElem_mem hlt)
        rw [distinctNames_mk]
        constructor
        · rw [List.map_set]
          have hname : (insertParts (cs.getD i blankNode) rest d).name = cs[i].name := by
            rw [insertParts_name, hgd]
          rw [hname]
          have hlt2 : i < (cs.map TreeNode.name).length := by simpa using hlt
          have hmapi : cs[i].name = (cs.map TreeNode.name)[i] := by
            simp
          rw [hmapi, set_getElem_self_eq (cs.map TreeNode.name) i hlt2]
          exact h.1
        · rw [distinctNamesAll_iff]
          intro x hx
          rcases List.mem_or_eq_of_mem_set hx with hx | hx
          · exact (distinctNamesAll_iff cs).1 h.2 _ hx
          · rw [hx]
            exact hchild
      | none =>
        rw [distinctNames_mk]
        constructor
        · rw [List.map_append]
          rw [List.nodup_append]
          refine ⟨h.1, by simp [distinctNames_buildChain, buildChain_name], ?_⟩
          intro x hx
          simp only [List.map_cons, List.map_nil, List.mem_cons, List.not_mem_nil, or_false,
            List.mem_singleton, buildChain_name]
          intro hcontra
          obtain ⟨c, hc, hcn⟩ := List.mem_map.1 hx
          have := List.findIdx?_eq_none_iff.1 hf c hc
          simp at this
          exact this (by rw [hcn, hcontra])
        · rw [distinctNamesAll_iff]
          intro x hx
          rcases List.mem_append.1 hx with hx | hx
          · exact (distinctNamesAll_iff cs).1 h.2 _ hx
          · rw [List.mem_singleton.1 hx]
            exact distinctNames_buildChain part rest d

theorem insertParts_buildChain (part : String) (rest : List String) (d : Bool) :
    insertParts (buildChain part rest d) rest d = buildChain part rest d := by
  induction rest generalizing part with
  | nil => rfl
  | cons p ps ih =>
    show insertParts (.mk part true [buildChain p ps d]) (p :: ps) d = .mk part true [buildChain p ps d]
    simp only [insertParts]
    rw [show ([buildChain p ps d].findIdx? (fun c => decide (c.name = p))) = some 0 from by
      simp [buildChain_name]]
    simp only [List.getD_cons_zero, List.set_cons_zero]
    rw [ih]

theorem insertParts_idem (t : TreeNode) (parts : List String) (d : Bool) :
    insertParts (insertParts t parts d) parts d = insertParts t parts d := by
  induction parts generalizing t with
  | nil => rw [insertParts_nil, insertParts_nil]
  | cons part rest ih =>
    cases t with
    | mk n b cs =>
      simp only [insertParts]
      cases hf : cs.findIdx? (fun c => decide (c.name = part)) with
      | some i =>
        obtain ⟨hlt, hpi, hmin⟩ := List.findIdx?_eq_some_iff_getElem.1 hf
        have hgd : cs.getD i blankNode = cs[i] := by
          rw [List.getD_eq_getElem?_getD, List.getElem?_eq_getElem hlt]
          rfl
        have hf2 : ((cs.set i (insertParts (cs.getD i blankNode) rest d)).findIdx?
            (fun c => decide (c.name = part))) = some i := by
          apply List.findIdx?_eq_some_iff_getElem.2
          have hlt2 : i < (cs.set i (insertParts (cs.getD i blankNode) rest d)).length := by
            simpa using hlt
          refine ⟨hlt2, ?_, ?_⟩
          · have : (cs.set i (insertParts (cs.getD i blankNode) rest d))[i] =
                insertParts (cs.getD i blankNode) rest d := List.getElem_set_self hlt2
            rw [this, insertParts_name, hgd]
            exact hpi
          · intro j hj
            rw [List.getElem_set_ne (by omega)]
            exact hmin j hj
        simp only [insertParts]
        simp only [hf2]
        have hgd2 : (cs.set i (insertParts (cs.getD i blankNode) rest d)).getD i blankNode =
            insertParts (cs.getD i blankNode) rest d := by
          rw [List.getD_eq_getElem?_getD, List.getElem?_set_self (by simpa using hlt)]
          rfl
        rw [hgd2, ih, List.set_set]
      | none =>
        have hf2 : ((cs ++ [buildChain part rest d]).findIdx?
            (fun c => decide (c.name = part))) = some cs.length := by
          rw [List.findIdx?_append, hf]
          simp [buildChain_name]
        simp only [insertParts]
        simp only [hf2]
        have hgd2 : (cs ++ [buildChain part rest d]).getD cs.length blankNode =
            buildChain part rest d := by
          rw [List.getD_eq_getElem?_getD, List.getElem?_concat_length]
          rfl
        rw [hgd2, insertParts_buildChain,
          List.set_append_right _ _ (Nat.le_refl cs.length)]
        simp

/-- C10: for every sequence of path insertions into a directory tree via
`addNodeToTree` starting from a fresh root, every node's children have
pairwise distinct names (shared path prefixes reuse the existing child), and
re-inserting any (path, isDir) pair into any tree a second time leaves the
tree unchanged. -/
theorem addNodeToTree_distinct_and_idempotent (rootName : String)
    (ops : List (String × Bool)) (t : TreeNode) (path : String) (isDir : Bool) :
    distinctNames (ops.foldl (fun acc pd => addNodeToTree acc pd.1 pd.2) (.mk rootName true [])) ∧
    addNodeToTree (addNodeToTree t path isDir) path isDir = addNodeToTree t path isDir := by
  constructor
  · refine foldl_preserves distinctNames _ ?_ ops _ ?_
    · intro s a hacc
      exact distinctNames_insertParts hacc _ _
    · simp [distinctNames_mk, distinctNamesAll]
  · exact insertParts_idem t (path.splitOn "/") isDir

end Dirtree
